import Mathlib

/-!
Verification of the `bignum-div-u64` core: division of a fixed-capacity
big unsigned integer (64-bit words, least-significant first) by a single
64-bit divisor.  The status enumeration and the call signature are taken
from `src/include/bignum_div_u64.h`; the body of `bignum_div_u64` itself
is modelled from the specification (§4.1 Validator, §4.2 Word-wise
Divider, §4.3 Normalizer), since the implementation file is not part of
the sources at hand.  Machine words are represented as `Nat` with the
bound `< 2 ^ 64` stated explicitly where it matters.
-/

/-- Status codes of `bignum_div_u64`, from the enum
`bignum_div_u64_status_t` in `src/include/bignum_div_u64.h`. -/
inductive bignum_div_u64_status_t where
  | BIGNUM_DIV_U64_OK
  | BIGNUM_DIV_U64_ERR_NULL_PTR
  | BIGNUM_DIV_U64_ERR_DIVISION_BY_ZERO
  | BIGNUM_DIV_U64_ERR_BUFFER_OVERLAP
  | BIGNUM_DIV_U64_ERR_BAD_LENGTH
deriving Repr, DecidableEq

/-- The integer value each enumerator carries in the C header:
`OK = 0`, `ERR_NULL_PTR = -1`, `ERR_DIVISION_BY_ZERO = -2`,
`ERR_BUFFER_OVERLAP = -3`, `ERR_BAD_LENGTH = -4`. -/
def statusValue : bignum_div_u64_status_t → Int
  | .BIGNUM_DIV_U64_OK => 0
  | .BIGNUM_DIV_U64_ERR_NULL_PTR => -1
  | .BIGNUM_DIV_U64_ERR_DIVISION_BY_ZERO => -2
  | .BIGNUM_DIV_U64_ERR_BUFFER_OVERLAP => -3
  | .BIGNUM_DIV_U64_ERR_BAD_LENGTH => -4

/-- The big-number value type `bignum_t`: a word storage (least-significant
word first; in C a fixed array of `BIGNUM_CAPACITY` words) together with a
significant-length field `len`.  The capacity is carried separately as a
parameter of the operations, standing for the `BIGNUM_CAPACITY` constant
owned by the shared header `bignum.h`. -/
structure bignum_t where
  len : Nat
  words : List Nat
deriving Repr, DecidableEq

/-- Value of a least-significant-first word list:
`Σ words[i] · 2^(64·i)`. -/
def bnVal : List Nat → Nat
  | [] => 0
  | w :: ws => w + 2 ^ 64 * bnVal ws

/-- Value of a `bignum_t`: the value of its first `len` stored words. -/
def bignumValue (b : bignum_t) : Nat := bnVal (b.words.take b.len)

/-- Value of a most-significant-first word list (the order in which the
long-division loop consumes the dividend). -/
def valMSB : List Nat → Nat
  | [] => 0
  | w :: ws => w * 2 ^ (64 * ws.length) + valMSB ws

/-- Modelled from the spec: §4.2 Word-wise Divider of the missing
implementation file.  One pass of schoolbook long division, base `2^64`,
over the significant words listed most-significant first.  Each step forms
the double-width value `step = carry · 2^64 + w`, emits the quotient digit
`step / d` and passes `step % d` on as the new carry.  Returns the quotient
digits (most-significant first) and the final carry (the remainder). -/
def divLoop (d : Nat) (carry : Nat) : List Nat → List Nat × Nat
  | [] => ([], carry)
  | w :: ws =>
    let step := carry * 2 ^ 64 + w
    let rest := divLoop d (step % d) ws
    (step / d :: rest.1, rest.2)

/-- Modelled from the spec: §4.3 Normalizer of the missing implementation
file.  For a least-significant-first word list, the smallest `k` such that
all words at indices `≥ k` are zero (`0` when every word is zero). -/
def normLen : List Nat → Nat
  | [] => 0
  | w :: ws =>
    let m := normLen ws
    if m = 0 ∧ w = 0 then 0 else m + 1

/-- Modelled from the spec: the byte-range overlap test of §4.1 check 3 of
the missing implementation file.  Two byte regions `[aBase, aBase+aSize)`
and `[bBase, bBase+bSize)` overlap when they share at least one byte;
merely adjacent regions do not overlap. -/
def regionsOverlap (aBase aSize bBase bSize : Nat) : Prop :=
  max aBase bBase < min (aBase + aSize) (bBase + bSize)

instance (aBase aSize bBase bSize : Nat) :
    Decidable (regionsOverlap aBase aSize bBase bSize) := by
  unfold regionsOverlap
  infer_instance

/-- One call of `bignum_div_u64`: the pointer-level facts the validator
inspects (nullness of the three pointers `q`, `n`, `rem`; the byte
addresses of the `q` and `n` objects and their common object size
`sizeof(bignum_t)`), the dividend contents `n`, the divisor `d`, and the
pre-call contents of the two output locations. -/
structure callState where
  qNull : Bool
  nNull : Bool
  remNull : Bool
  qBase : Nat
  nBase : Nat
  objSize : Nat
  n : bignum_t
  d : Nat
  qPrev : bignum_t
  remPrev : Nat
deriving Repr, DecidableEq

/-- Modelled from the spec: the function `bignum_div_u64` itself — its
implementation file is not among the sources, only its prototype and the
algorithm documented on it in `src/include/bignum_div_u64.h` and §4 of the
specification.  Validation runs in the exact order null pointers, zero
divisor, buffer overlap, length bound (first failing check wins, no side
effect on failure); a validated call zeroes the quotient storage, runs the
most-significant-first word division loop and normalizes the quotient
length.  `cap` stands for `BIGNUM_CAPACITY`.  The result is the returned
status together with the post-call contents of the quotient structure and
of the remainder location. -/
def bignum_div_u64 (cap : Nat) (s : callState) :
    bignum_div_u64_status_t × bignum_t × Nat :=
  if s.qNull || s.nNull || s.remNull then
    (.BIGNUM_DIV_U64_ERR_NULL_PTR, s.qPrev, s.remPrev)
  else if s.d = 0 then
    (.BIGNUM_DIV_U64_ERR_DIVISION_BY_ZERO, s.qPrev, s.remPrev)
  else if regionsOverlap s.qBase s.objSize s.nBase s.objSize then
    (.BIGNUM_DIV_U64_ERR_BUFFER_OVERLAP, s.qPrev, s.remPrev)
  else if cap < s.n.len then
    (.BIGNUM_DIV_U64_ERR_BAD_LENGTH, s.qPrev, s.remPrev)
  else
    let res := divLoop s.d 0 (s.n.words.take s.n.len).reverse
    let qws := res.1.reverse
    (.BIGNUM_DIV_U64_OK,
      ⟨normLen qws, qws ++ List.replicate (cap - s.n.len) 0⟩,
      res.2)

/-- A call that passes all four validation checks of §4.1. -/
def validCall (cap : Nat) (s : callState) : Prop :=
  s.qNull = false ∧ s.nNull = false ∧ s.remNull = false ∧ s.d ≠ 0 ∧
  ¬ regionsOverlap s.qBase s.objSize s.nBase s.objSize ∧ s.n.len ≤ cap

instance (cap : Nat) (s : callState) : Decidable (validCall cap s) := by
  unfold validCall
  infer_instance

/-- A concrete valid call (capacity 2): dividend `2^64 + 5`, divisor `3`. -/
def sValid : callState :=
  { qNull := false, nNull := false, remNull := false,
    qBase := 0, nBase := 100, objSize := 24,
    n := ⟨2, [5, 1]⟩, d := 3, qPrev := ⟨0, [0, 0]⟩, remPrev := 7 }

/-- A concrete call with two simultaneous violations (capacity 2): the
dividend pointer is null and the declared length 9 is oversized. -/
def sNullAndLong : callState :=
  { qNull := false, nNull := true, remNull := false,
    qBase := 0, nBase := 100, objSize := 24,
    n := ⟨9, []⟩, d := 5, qPrev := ⟨0, [0, 0]⟩, remPrev := 0 }

/-- A concrete call (capacity 2) whose quotient object starts 8 bytes
before the dividend object of size 24: the byte ranges overlap. -/
def sOverlapping : callState :=
  { qNull := false, nNull := false, remNull := false,
    qBase := 0, nBase := 8, objSize := 24,
    n := ⟨1, [4, 0]⟩, d := 7, qPrev := ⟨0, [0, 0]⟩, remPrev := 0 }

/-- A concrete call (capacity 2) with divisor 0 and distinguished previous
output contents. -/
def sDivZero : callState :=
  { qNull := false, nNull := false, remNull := false,
    qBase := 0, nBase := 100, objSize := 24,
    n := ⟨1, [4, 0]⟩, d := 0, qPrev := ⟨1, [3, 4]⟩, remPrev := 9 }

/-- A concrete call (capacity 4) with declared length `CAPACITY + 1 = 5`
and divisor 0 at the same time. -/
def sLongDivZero : callState :=
  { qNull := false, nNull := false, remNull := false,
    qBase := 0, nBase := 100, objSize := 40,
    n := ⟨5, [0, 0, 0, 0]⟩, d := 0, qPrev := ⟨0, [0, 0, 0, 0]⟩, remPrev := 0 }

/-- A concrete call (capacity 4) with declared length `CAPACITY + 1 = 5`
and the nonzero divisor 123 used by `test_error_bad_length`. -/
def sLongNonzero : callState :=
  { qNull := false, nNull := false, remNull := false,
    qBase := 0, nBase := 100, objSize := 40,
    n := ⟨5, [1, 2, 3, 4]⟩, d := 123, qPrev := ⟨0, [0, 0, 0, 0]⟩, remPrev := 0 }

/-- A concrete valid call (capacity 2) with a non-trimmed dividend: the
declared length is 1 but the single declared word is 0, divisor 1. -/
def sUntrimmed : callState :=
  { qNull := false, nNull := false, remNull := false,
    qBase := 0, nBase := 100, objSize := 24,
    n := ⟨1, [0, 0]⟩, d := 1, qPrev := ⟨0, [0, 0]⟩, remPrev := 0 }

/-- A concrete valid call (capacity 2) with a trimmed dividend of length 2
and divisor 1. -/
def sTrimmed : callState :=
  { qNull := false, nNull := false, remNull := false,
    qBase := 0, nBase := 100, objSize := 24,
    n := ⟨2, [7, 9]⟩, d := 1, qPrev := ⟨0, [0, 0]⟩, remPrev := 3 }

/-- The call of `test_leading_zeros_in_dividend` (capacity 3): dividend of
declared length 3 with words `[5, 10, 0]` (value `10·2^64 + 5`, leading
zero high word), divisor 10. -/
def sLeadZero : callState :=
  { qNull := false, nNull := false, remNull := false,
    qBase := 0, nBase := 100, objSize := 32,
    n := ⟨3, [5, 10, 0]⟩, d := 10, qPrev := ⟨0, [0, 0, 0]⟩, remPrev := 0 }

theorem divLoop_length (d : Nat) :
    ∀ (l : List Nat) (carry : Nat), ((divLoop d carry l).1).length = l.length := by
  intro l
  induction l with
  | nil => intro c; rfl
  | cons w ws ih => intro c; simp [divLoop, ih]

theorem valMSB_append_singleton (xs : List Nat) (w : Nat) :
    valMSB (xs ++ [w]) = valMSB xs * 2 ^ 64 + w := by
  induction xs with
  | nil => simp [valMSB]
  | cons x xs ih =>
    rw [List.cons_append]
    show valMSB (x :: (xs ++ [w])) = valMSB (x :: xs) * 2 ^ 64 + w
    simp only [valMSB, ih, List.length_append, List.length_singleton]
    rw [Nat.mul_add, pow_add]
    ring

theorem valMSB_reverse (l : List Nat) : valMSB l.reverse = bnVal l := by
  induction l with
  | nil => rfl
  | cons w ws ih =>
    simp only [List.reverse_cons, valMSB_append_singleton, ih, bnVal]
    ring

theorem divLoop_correct (d : Nat) (hd : 0 < d) :
    ∀ (l : List Nat) (carry : Nat), carry < d →
      valMSB (divLoop d carry l).1 * d + (divLoop d carry l).2
          = carry * 2 ^ (64 * l.length) + valMSB l
      ∧ (divLoop d carry l).2 < d := by
  intro l
  induction l with
  | nil =>
    intro carry hc
    constructor
    · simp [divLoop, valMSB]
    · simpa [divLoop] using hc
  | cons w ws ih =>
    intro carry hc
    obtain ⟨hval, hlt⟩ := ih ((carry * 2 ^ 64 + w) % d) (Nat.mod_lt _ hd)
    constructor
    · calc valMSB (divLoop d carry (w :: ws)).1 * d + (divLoop d carry (w :: ws)).2
          = ((carry * 2 ^ 64 + w) / d) * 2 ^ (64 * ws.length) * d
              + (valMSB (divLoop d ((carry * 2 ^ 64 + w) % d) ws).1 * d
                 + (divLoop d ((carry * 2 ^ 64 + w) % d) ws).2) := by
            simp only [divLoop, valMSB, divLoop_length]
            ring
        _ = ((carry * 2 ^ 64 + w) / d) * 2 ^ (64 * ws.length) * d
              + ((carry * 2 ^ 64 + w) % d) * 2 ^ (64 * ws.length) + valMSB ws := by
            rw [hval]; ring
        _ = ((carry * 2 ^ 64 + w) / d * d + (carry * 2 ^ 64 + w) % d)
              * 2 ^ (64 * ws.length) + valMSB ws := by ring
        _ = (carry * 2 ^ 64 + w) * 2 ^ (64 * ws.length) + valMSB ws := by
            rw [Nat.div_add_mod']
        _ = carry * 2 ^ (64 * (w :: ws).length) + valMSB (w :: ws) := by
            simp only [valMSB, List.length_cons, Nat.mul_succ, pow_add]
            ring
    · simpa [divLoop] using hlt

theorem normLen_le (l : List Nat) : normLen l ≤ l.length := by
  induction l with
  | nil => exact Nat.le_refl 0
  | cons w ws ih =>
    simp only [normLen, List.length_cons]
    split
    · exact Nat.zero_le _
    · exact Nat.succ_le_succ ih

theorem normLen_zero_after (l : List Nat) :
    ∀ j, normLen l ≤ j → l.getD j 0 = 0 := by
  induction l with
  | nil => intro j _; simp [List.getD]
  | cons w ws ih =>
    intro j hj
    by_cases hc : normLen ws = 0 ∧ w = 0
    · cases j with
      | zero => simpa using hc.2
      | succ k =>
        rw [List.getD_cons_succ]
        exact ih k (hc.1 ▸ Nat.zero_le k)
    · simp only [normLen, if_neg hc] at hj
      cases j with
      | zero => exact absurd hj (by omega)
      | succ k =>
        rw [List.getD_cons_succ]
        exact ih k (Nat.le_of_succ_le_succ hj)

theorem normLen_top (l : List Nat) :
    normLen l = 0 ∨ l.getD (normLen l - 1) 0 ≠ 0 := by
  induction l with
  | nil => exact Or.inl rfl
  | cons w ws ih =>
    by_cases hc : normLen ws = 0 ∧ w = 0
    · exact Or.inl (by simp [normLen, hc])
    · right
      simp only [normLen, if_neg hc, Nat.add_sub_cancel]
      rcases Nat.eq_zero_or_pos (normLen ws) with h0 | hpos
      · have hw : w ≠ 0 := fun hw0 => hc ⟨h0, hw0⟩
        simpa [h0] using hw
      · obtain ⟨k, hk⟩ := Nat.exists_eq_add_of_lt hpos
        rcases ih with h0 | hne
        · omega
        · rw [show normLen ws = k + 1 by omega, List.getD_cons_succ]
          simpa [show normLen ws - 1 = k by omega] using hne

theorem bnVal_eq_zero_of_normLen_eq_zero (l : List Nat)
    (h : normLen l = 0) : bnVal l = 0 := by
  induction l with
  | nil => rfl
  | cons w ws ih =>
    by_cases hc : normLen ws = 0 ∧ w = 0
    · simp [bnVal, hc.2, ih hc.1]
    · simp [normLen, if_neg hc] at h

theorem bnVal_take_normLen (l : List Nat) :
    bnVal (l.take (normLen l)) = bnVal l := by
  induction l with
  | nil => rfl
  | cons w ws ih =>
    by_cases hc : normLen ws = 0 ∧ w = 0
    · simp only [normLen, if_pos hc, List.take_zero]
      simp [bnVal, hc.2, bnVal_eq_zero_of_normLen_eq_zero ws hc.1]
    · simp only [normLen, if_neg hc, List.take_succ_cons, bnVal, ih]

theorem normLen_of_trimmed (l : List Nat) (hpos : 0 < l.length)
    (htop : l.getD (l.length - 1) 0 ≠ 0) : normLen l = l.length := by
  rcases Nat.lt_or_ge (normLen l) l.length with hlt | hge
  · exact absurd (normLen_zero_after l (l.length - 1) (by omega)) htop
  · exact Nat.le_antisymm (normLen_le l) hge

theorem getD_take (l : List Nat) :
    ∀ k j, j < k → (l.take k).getD j 0 = l.getD j 0 := by
  induction l with
  | nil => intro k j _; simp
  | cons w ws ih =>
    intro k j hjk
    obtain ⟨m, rfl⟩ : ∃ m, k = m + 1 := ⟨k - 1, by omega⟩
    rw [List.take_succ_cons]
    cases j with
    | zero => rfl
    | succ i =>
      rw [List.getD_cons_succ, List.getD_cons_succ]
      exact ih m i (by omega)

theorem getD_replicate_zero (m : Nat) :
    ∀ j, (List.replicate m (0 : Nat)).getD j 0 = 0 := by
  induction m with
  | zero => intro j; simp [List.getD]
  | succ k ih =>
    intro j
    rw [List.replicate_succ]
    cases j with
    | zero => rfl
    | succ i => rw [List.getD_cons_succ]; exact ih i

theorem divLoop_one (l : List Nat) : divLoop 1 0 l = (l, 0) := by
  induction l with
  | nil => rfl
  | cons w ws ih => simp [divLoop, Nat.mod_one, Nat.div_one, ih]

theorem divLoop_bounds (d : Nat) (hd : 0 < d) :
    ∀ (l : List Nat), (∀ w ∈ l, w < 2 ^ 64) → ∀ carry, carry < d →
      (divLoop d carry l).2 < d ∧ ∀ q ∈ (divLoop d carry l).1, q < 2 ^ 64 := by
  intro l
  induction l with
  | nil =>
    intro _ carry hc
    exact ⟨hc, by simp [divLoop]⟩
  | cons w ws ih =>
    intro hw carry hc
    have hwlt : w < 2 ^ 64 := hw w (List.mem_cons_self w ws)
    have hstep : carry * 2 ^ 64 + w < 2 ^ 64 * d := by
      calc carry * 2 ^ 64 + w < (carry + 1) * 2 ^ 64 := by
            rw [Nat.add_mul, Nat.one_mul]; omega
        _ ≤ d * 2 ^ 64 := Nat.mul_le_mul_right _ hc
        _ = 2 ^ 64 * d := Nat.mul_comm d (2 ^ 64)
    have hdigit : (carry * 2 ^ 64 + w) / d < 2 ^ 64 :=
      (Nat.div_lt_iff_lt_mul hd).2 (by omega)
    obtain ⟨hcarry, hdigits⟩ :=
      ih (fun x hx => hw x (List.mem_cons_of_mem w hx))
        ((carry * 2 ^ 64 + w) % d) (Nat.mod_lt _ hd)
    refine ⟨by simpa [divLoop] using hcarry, ?_⟩
    intro q hq
    simp only [divLoop, List.mem_cons] at hq
    rcases hq with rfl | hq
    · exact hdigit
    · exact hdigits q hq

theorem div_ok (cap : Nat) (s : callState) (h : validCall cap s) :
    bignum_div_u64 cap s =
      (.BIGNUM_DIV_U64_OK,
       ⟨normLen ((divLoop s.d 0 (s.n.words.take s.n.len).reverse).1.reverse),
        (divLoop s.d 0 (s.n.words.take s.n.len).reverse).1.reverse
          ++ List.replicate (cap - s.n.len) 0⟩,
       (divLoop s.d 0 (s.n.words.take s.n.len).reverse).2) := by
  obtain ⟨h1, h2, h3, h4, h5, h6⟩ := h
  simp [bignum_div_u64, h1, h2, h3, h4, h5, Nat.not_lt.2 h6]

/-- C10: the status type assigns 0 to success and the pairwise-distinct
negative values -1, -2, -3, -4 to the four failure outcomes, so a caller
can test success as `status == 0` and failure as `status < 0`. -/
theorem C10_status_values :
    statusValue .BIGNUM_DIV_U64_OK = 0 ∧
    statusValue .BIGNUM_DIV_U64_ERR_NULL_PTR = -1 ∧
    statusValue .BIGNUM_DIV_U64_ERR_DIVISION_BY_ZERO = -2 ∧
    statusValue .BIGNUM_DIV_U64_ERR_BUFFER_OVERLAP = -3 ∧
    statusValue .BIGNUM_DIV_U64_ERR_BAD_LENGTH = -4 ∧
    (∀ a b : bignum_div_u64_status_t, statusValue a = statusValue b ↔ a = b) ∧
    (∀ a : bignum_div_u64_status_t,
      statusValue a = 0 ↔ a = .BIGNUM_DIV_U64_OK) ∧
    (∀ a : bignum_div_u64_status_t,
      a = .BIGNUM_DIV_U64_OK ∨ statusValue a < 0) := by
  refine ⟨rfl, rfl, rfl, rfl, rfl, ?_, ?_, ?_⟩
  · intro a b; cases a <;> cases b <;> decide
  · intro a; cases a <;> decide
  · intro a; cases a <;> decide

/-- C2: the validation checks run in the exact precedence null argument,
divisor zero, buffer overlap, length bound, and with several simultaneous
violations the status of the first matching check is reported. -/
theorem C2_validation_precedence (cap : Nat) (s : callState) :
    ((s.qNull || s.nNull || s.remNull) = true →
      (bignum_div_u64 cap s).1 = .BIGNUM_DIV_U64_ERR_NULL_PTR) ∧
    (s.qNull = false → s.nNull = false → s.remNull = false → s.d = 0 →
      (bignum_div_u64 cap s).1 = .BIGNUM_DIV_U64_ERR_DIVISION_BY_ZERO) ∧
    (s.qNull = false → s.nNull = false → s.remNull = false → s.d ≠ 0 →
      regionsOverlap s.qBase s.objSize s.nBase s.objSize →
      (bignum_div_u64 cap s).1 = .BIGNUM_DIV_U64_ERR_BUFFER_OVERLAP) ∧
    (s.qNull = false → s.nNull = false → s.remNull = false → s.d ≠ 0 →
      ¬ regionsOverlap s.qBase s.objSize s.nBase s.objSize → cap < s.n.len →
      (bignum_div_u64 cap s).1 = .BIGNUM_DIV_U64_ERR_BAD_LENGTH) := by
  refine ⟨?_, ?_, ?_, ?_⟩
  · intro h; simp [bignum_div_u64, h]
  · intro h1 h2 h3 h4; simp [bignum_div_u64, h1, h2, h3, h4]
  · intro h1 h2 h3 h4 h5; simp [bignum_div_u64, h1, h2, h3, h4, h5]
  · intro h1 h2 h3 h4 h5 h6; simp [bignum_div_u64, h1, h2, h3, h4, h5, h6]

/-- C2 witness: a call with a null dividend pointer and a simultaneously
oversized length is reported as the null-argument failure. -/
theorem C2_validation_precedence_witness :
    (bignum_div_u64 2 sNullAndLong).1 = .BIGNUM_DIV_U64_ERR_NULL_PTR :=
  (C2_validation_precedence 2 sNullAndLong).1 (by decide)

/-- C5: on every call returning a failure status, the quotient structure
and the remainder location are left exactly as they were before. -/
theorem C5_no_side_effects_on_failure (cap : Nat) (s : callState)
    (h : (bignum_div_u64 cap s).1 ≠ .BIGNUM_DIV_U64_OK) :
    (bignum_div_u64 cap s).2.1 = s.qPrev ∧
    (bignum_div_u64 cap s).2.2 = s.remPrev := by
  revert h
  simp only [bignum_div_u64]
  split
  · exact fun _ => ⟨rfl, rfl⟩
  · split
    · exact fun _ => ⟨rfl, rfl⟩
    · split
      · exact fun _ => ⟨rfl, rfl⟩
      · split
        · exact fun _ => ⟨rfl, rfl⟩
        · intro h; exact absurd rfl h

/-- C5 witness: the division-by-zero failure leaves the previous quotient
contents and the previous remainder value in place. -/
theorem C5_no_side_effects_on_failure_witness :
    (bignum_div_u64 2 sDivZero).1 ≠ .BIGNUM_DIV_U64_OK ∧
    ((bignum_div_u64 2 sDivZero).2.1 = sDivZero.qPrev ∧
     (bignum_div_u64 2 sDivZero).2.2 = sDivZero.remPrev) :=
  ⟨by decide, C5_no_side_effects_on_failure 2 sDivZero (by decide)⟩

/-- C3: once the null and divisor checks pass, the call returns
`BufferOverlap` exactly when the quotient and dividend byte regions share
at least one byte — in particular when the two pointers are identical or
the quotient pointer lands inside the dividend's storage — while merely
adjacent regions are no overlap and such a call succeeds. -/
theorem C3_buffer_overlap (cap : Nat) (s : callState)
    (hq : s.qNull = false) (hn : s.nNull = false) (hr : s.remNull = false)
    (hd : s.d ≠ 0) :
    ((bignum_div_u64 cap s).1 = .BIGNUM_DIV_U64_ERR_BUFFER_OVERLAP ↔
      regionsOverlap s.qBase s.objSize s.nBase s.objSize) ∧
    (s.qBase = s.nBase → 0 < s.objSize →
      (bignum_div_u64 cap s).1 = .BIGNUM_DIV_U64_ERR_BUFFER_OVERLAP) ∧
    (s.nBase < s.qBase → s.qBase < s.nBase + s.objSize →
      (bignum_div_u64 cap s).1 = .BIGNUM_DIV_U64_ERR_BUFFER_OVERLAP) ∧
    (s.nBase = s.qBase + s.objSize → s.n.len ≤ cap →
      (bignum_div_u64 cap s).1 = .BIGNUM_DIV_U64_OK) := by
  have hiff : (bignum_div_u64 cap s).1 = .BIGNUM_DIV_U64_ERR_BUFFER_OVERLAP ↔
      regionsOverlap s.qBase s.objSize s.nBase s.objSize := by
    constructor
    · intro h
      by_contra hov
      rcases Nat.lt_or_ge cap s.n.len with hl | hl
      · simp [bignum_div_u64, hq, hn, hr, hd, hov, hl] at h
      · simp [bignum_div_u64, hq, hn, hr, hd, hov, Nat.not_lt.2 hl] at h
    · intro hov
      simp [bignum_div_u64, hq, hn, hr, hd, hov]
  refine ⟨hiff, ?_, ?_, ?_⟩
  · intro he hsz
    refine hiff.2 ?_
    unfold regionsOverlap
    omega
  · intro h1 h2
    refine hiff.2 ?_
    unfold regionsOverlap
    omega
  · intro hadj hlen
    have hov : ¬ regionsOverlap s.qBase s.objSize s.nBase s.objSize := by
      unfold regionsOverlap
      omega
    simp [bignum_div_u64, hq, hn, hr, hd, hov, Nat.not_lt.2 hlen]

/-- C3 witness: a quotient object starting 8 bytes before a 24-byte
dividend object is rejected as a buffer overlap. -/
theorem C3_buffer_overlap_witness :
    (bignum_div_u64 2 sOverlapping).1 = .BIGNUM_DIV_U64_ERR_BUFFER_OVERLAP :=
  (C3_buffer_overlap 2 sOverlapping (by decide) (by decide) (by decide)
    (by decide)).1.mpr (by decide)

/-- C6 counterexample: a call with non-null pointers, non-overlapping
buffers and declared length `CAPACITY + 1` (capacity 4, length 5) whose
divisor is zero returns `DivisionByZero`, not `InvalidLength` — the
divisor check precedes the length check. -/
theorem C6_counterexample :
    sLongDivZero.n.len = 4 + 1 ∧
    sLongDivZero.qNull = false ∧ sLongDivZero.nNull = false ∧
    sLongDivZero.remNull = false ∧
    ¬ regionsOverlap sLongDivZero.qBase sLongDivZero.objSize
        sLongDivZero.nBase sLongDivZero.objSize ∧
    (bignum_div_u64 4 sLongDivZero).1
      = .BIGNUM_DIV_U64_ERR_DIVISION_BY_ZERO ∧
    (bignum_div_u64 4 sLongDivZero).1 ≠ .BIGNUM_DIV_U64_ERR_BAD_LENGTH := by
  decide

/-- C6 (amended): a call with non-null pointers, non-overlapping buffers
and declared length `CAPACITY + 1` returns `InvalidLength` for every
nonzero divisor; a zero divisor is reported as `DivisionByZero` first. -/
theorem C6_bad_length (cap : Nat) (s : callState)
    (hq : s.qNull = false) (hn : s.nNull = false) (hr : s.remNull = false)
    (hov : ¬ regionsOverlap s.qBase s.objSize s.nBase s.objSize)
    (hlen : s.n.len = cap + 1) (hd : s.d ≠ 0) :
    (bignum_div_u64 cap s).1 = .BIGNUM_DIV_U64_ERR_BAD_LENGTH := by
  have hlt : cap < s.n.len := by omega
  simp [bignum_div_u64, hq, hn, hr, hd, hov, hlt]

/-- C6 witness: declared length 5 at capacity 4 with the nonzero divisor
123 of `test_error_bad_length` is rejected as `InvalidLength`. -/
theorem C6_bad_length_witness :
    (bignum_div_u64 4 sLongNonzero).1 = .BIGNUM_DIV_U64_ERR_BAD_LENGTH :=
  C6_bad_length 4 sLongNonzero (by decide) (by decide) (by decide)
    (by decide) (by decide) (by decide)

/-- C1: every call that passes validation returns `Ok`, and the outputs
satisfy the exact round-trip identity `N = Q·d + R` with `0 ≤ R < d`,
where `N` is the value of the dividend's declared words, `Q` the value of
the written quotient and `R` the written remainder. -/
theorem C1_round_trip (cap : Nat) (s : callState) (h : validCall cap s) :
    (bignum_div_u64 cap s).1 = .BIGNUM_DIV_U64_OK ∧
    bignumValue s.n
      = bignumValue (bignum_div_u64 cap s).2.1 * s.d
          + (bignum_div_u64 cap s).2.2 ∧
    (bignum_div_u64 cap s).2.2 < s.d := by
  have hd : 0 < s.d := Nat.pos_of_ne_zero h.2.2.2.1
  rw [div_ok cap s h]
  dsimp only
  obtain ⟨hval, hlt⟩ :=
    divLoop_correct s.d hd ((s.n.words.take s.n.len).reverse) 0 hd
  refine ⟨rfl, ?_, hlt⟩
  have hqval :
      bignumValue
        ⟨normLen ((divLoop s.d 0 (s.n.words.take s.n.len).reverse).1.reverse),
         (divLoop s.d 0 (s.n.words.take s.n.len).reverse).1.reverse
           ++ List.replicate (cap - s.n.len) 0⟩
        = valMSB (divLoop s.d 0 (s.n.words.take s.n.len).reverse).1 := by
    unfold bignumValue
    dsimp only
    rw [List.take_append_of_le_length (normLen_le _), bnVal_take_normLen,
      ← valMSB_reverse, List.reverse_reverse]
  rw [hqval]
  have hnval : bignumValue s.n
      = valMSB ((s.n.words.take s.n.len).reverse) := by
    unfold bignumValue
    rw [valMSB_reverse]
  rw [Nat.zero_mul, Nat.zero_add] at hval
  rw [hnval, ← hval]

/-- C1 witness: the valid call dividing `2^64 + 5` by 3 at capacity 2
satisfies the round-trip identity. -/
theorem C1_round_trip_witness :
    validCall 2 sValid ∧
    ((bignum_div_u64 2 sValid).1 = .BIGNUM_DIV_U64_OK ∧
     bignumValue sValid.n
       = bignumValue (bignum_div_u64 2 sValid).2.1 * sValid.d
           + (bignum_div_u64 2 sValid).2.2 ∧
     (bignum_div_u64 2 sValid).2.2 < sValid.d) :=
  ⟨by decide, C1_round_trip 2 sValid (by decide)⟩

/-- C4: on every successful call the quotient's length field is the
smallest `k` with all words at indices `≥ k` zero (0 when all are zero),
and every quotient word at an index at or above the dividend's declared
length is zero. -/
theorem C4_quotient_normalized (cap : Nat) (s : callState)
    (h : validCall cap s) (hst : s.n.words.length = cap) :
    (bignum_div_u64 cap s).1 = .BIGNUM_DIV_U64_OK ∧
    (∀ j, (bignum_div_u64 cap s).2.1.len ≤ j →
      ((bignum_div_u64 cap s).2.1.words).getD j 0 = 0) ∧
    ((bignum_div_u64 cap s).2.1.len = 0 ∨
      ((bignum_div_u64 cap s).2.1.words).getD
        ((bignum_div_u64 cap s).2.1.len - 1) 0 ≠ 0) ∧
    (∀ j, s.n.len ≤ j →
      ((bignum_div_u64 cap s).2.1.words).getD j 0 = 0) := by
  rw [div_ok cap s h]
  dsimp only
  set qws := (divLoop s.d 0 (s.n.words.take s.n.len).reverse).1.reverse
    with hqws
  have hlen : qws.length = s.n.len := by
    rw [hqws, List.length_reverse, divLoop_length, List.length_reverse,
      List.length_take, hst]
    exact Nat.min_eq_left h.2.2.2.2.2
  have hzero : ∀ j, normLen qws ≤ j →
      (qws ++ List.replicate (cap - s.n.len) 0).getD j 0 = 0 := by
    intro j hj
    rcases Nat.lt_or_ge j qws.length with hlt | hge
    · rw [List.getD_append _ _ _ _ hlt]
      exact normLen_zero_after qws j hj
    · rw [List.getD_append_right _ _ _ _ hge]
      exact getD_replicate_zero _ _
  refine ⟨rfl, hzero, ?_, ?_⟩
  · by_cases hz : normLen qws = 0
    · exact Or.inl hz
    · rcases normLen_top qws with h0 | hne
      · exact Or.inl h0
      · right
        have hlt : normLen qws - 1 < qws.length := by
          have := normLen_le qws
          omega
        rw [List.getD_append _ _ _ _ hlt]
        exact hne
  · intro j hj
    exact hzero j (Nat.le_trans (hlen ▸ normLen_le qws) hj)

/-- C4 witness: the valid call dividing `2^64 + 5` by 3 at capacity 2
produces a normalized quotient. -/
theorem C4_quotient_normalized_witness :
    (validCall 2 sValid ∧ sValid.n.words.length = 2) ∧
    ((bignum_div_u64 2 sValid).1 = .BIGNUM_DIV_U64_OK ∧
     (∀ j, (bignum_div_u64 2 sValid).2.1.len ≤ j →
       ((bignum_div_u64 2 sValid).2.1.words).getD j 0 = 0) ∧
     ((bignum_div_u64 2 sValid).2.1.len = 0 ∨
       ((bignum_div_u64 2 sValid).2.1.words).getD
         ((bignum_div_u64 2 sValid).2.1.len - 1) 0 ≠ 0) ∧
     (∀ j, sValid.n.len ≤ j →
       ((bignum_div_u64 2 sValid).2.1.words).getD j 0 = 0)) :=
  ⟨⟨by decide, by decide⟩,
    C4_quotient_normalized 2 sValid (by decide) (by decide)⟩

/-- C7 counterexample: a valid non-trimmed dividend of declared length 1
whose single declared word is 0, divided by 1, succeeds with remainder 0
but the quotient's significant length is normalized to 0, so the quotient
does not equal the dividend exactly. -/
theorem C7_counterexample :
    validCall 2 sUntrimmed ∧ sUntrimmed.d = 1 ∧
    (bignum_div_u64 2 sUntrimmed).1 = .BIGNUM_DIV_U64_OK ∧
    (bignum_div_u64 2 sUntrimmed).2.2 = 0 ∧
    (bignum_div_u64 2 sUntrimmed).2.1.len ≠ sUntrimmed.n.len := by
  decide

/-- C7 (amended): for every valid dividend whose declared length is
already trimmed (length 0 or nonzero top declared word), dividing by 1
yields a quotient equal to the dividend exactly — same significant length
and same declared word contents — and remainder 0; a non-trimmed dividend
yields the trimmed equivalent instead. -/
theorem C7_division_by_one (cap : Nat) (s : callState)
    (h : validCall cap s) (hst : s.n.words.length = cap) (hd1 : s.d = 1)
    (htrim : s.n.len = 0 ∨ (s.n.words).getD (s.n.len - 1) 0 ≠ 0) :
    (bignum_div_u64 cap s).1 = .BIGNUM_DIV_U64_OK ∧
    (bignum_div_u64 cap s).2.1.len = s.n.len ∧
    ((bignum_div_u64 cap s).2.1.words).take s.n.len
      = (s.n.words).take s.n.len ∧
    (bignum_div_u64 cap s).2.2 = 0 := by
  rw [div_ok cap s h]
  dsimp only
  rw [hd1, divLoop_one]
  dsimp only
  rw [List.reverse_reverse]
  have htl : (s.n.words.take s.n.len).length = s.n.len := by
    rw [List.length_take, hst]
    exact Nat.min_eq_left h.2.2.2.2.2
  have hnorm : normLen (s.n.words.take s.n.len) = s.n.len := by
    by_cases hl0 : s.n.len = 0
    · rw [hl0, List.take_zero]
      rfl
    · rcases htrim with h0 | htop
      · exact absurd h0 hl0
      · have h1 : normLen (s.n.words.take s.n.len)
            = (s.n.words.take s.n.len).length := by
          refine normLen_of_trimmed _ ?_ ?_
          · rw [htl]
            omega
          · rw [htl, getD_take s.n.words s.n.len (s.n.len - 1) (by omega)]
            exact htop
        rw [h1, htl]
  have htake : ((s.n.words.take s.n.len)
      ++ List.replicate (cap - s.n.len) 0).take s.n.len
      = s.n.words.take s.n.len := by
    have h2 := List.take_left (s.n.words.take s.n.len)
      (List.replicate (cap - s.n.len) 0)
    rw [htl] at h2
    exact h2
  exact ⟨rfl, hnorm, htake, rfl⟩

/-- C7 witness: the trimmed dividend `9·2^64 + 7` (length 2) divided by 1
gives back exactly the same length and words with remainder 0. -/
theorem C7_division_by_one_witness :
    (validCall 2 sTrimmed ∧ sTrimmed.n.words.length = 2 ∧ sTrimmed.d = 1 ∧
     (sTrimmed.n.len = 0 ∨
       (sTrimmed.n.words).getD (sTrimmed.n.len - 1) 0 ≠ 0)) ∧
    ((bignum_div_u64 2 sTrimmed).1 = .BIGNUM_DIV_U64_OK ∧
     (bignum_div_u64 2 sTrimmed).2.1.len = sTrimmed.n.len ∧
     ((bignum_div_u64 2 sTrimmed).2.1.words).take sTrimmed.n.len
       = (sTrimmed.n.words).take sTrimmed.n.len ∧
     (bignum_div_u64 2 sTrimmed).2.2 = 0) :=
  ⟨⟨by decide, by decide, by decide, by decide⟩,
    C7_division_by_one 2 sTrimmed (by decide) (by decide) (by decide)
      (by decide)⟩

/-- C8: a non-pre-trimmed dividend is accepted and processed correctly: a
dividend of declared length 3 with words `[5, 10, 0]` (value
`10·2^64 + 5`, zero most-significant word) divided by 10 yields quotient
`2^64` (significant length 2, words `[0, 1]`) and remainder 5. -/
theorem C8_leading_zero_high_word (cap : Nat) (s : callState)
    (hcap : 3 ≤ cap) (hq : s.qNull = false) (hn : s.nNull = false)
    (hr : s.remNull = false)
    (hov : ¬ regionsOverlap s.qBase s.objSize s.nBase s.objSize)
    (hd : s.d = 10) (hlen : s.n.len = 3)
    (hw : s.n.words.take 3 = [5, 10, 0]) :
    (bignum_div_u64 cap s).1 = .BIGNUM_DIV_U64_OK ∧
    (bignum_div_u64 cap s).2.1.len = 2 ∧
    ((bignum_div_u64 cap s).2.1.words).take 2 = [0, 1] ∧
    (bignum_div_u64 cap s).2.2 = 5 := by
  have hvalid : validCall cap s :=
    ⟨hq, hn, hr, by rw [hd]; decide, hov, by omega⟩
  rw [div_ok cap s hvalid]
  dsimp only
  rw [hd, hlen, hw]
  have hcomp : divLoop 10 0 (([5, 10, 0] : List Nat).reverse)
      = ([0, 1, 0], 5) := by decide
  rw [hcomp]
  dsimp only
  have hrev : ([0, 1, 0] : List Nat).reverse = [0, 1, 0] := by decide
  rw [hrev]
  refine ⟨rfl, by decide, ?_, rfl⟩
  rw [List.take_append_of_le_length
    (by decide : 2 ≤ ([0, 1, 0] : List Nat).length)]
  decide

/-- C8 witness: the exact call of `test_leading_zeros_in_dividend` at
capacity 3. -/
theorem C8_leading_zero_high_word_witness :
    (bignum_div_u64 3 sLeadZero).1 = .BIGNUM_DIV_U64_OK ∧
    (bignum_div_u64 3 sLeadZero).2.1.len = 2 ∧
    ((bignum_div_u64 3 sLeadZero).2.1.words).take 2 = [0, 1] ∧
    (bignum_div_u64 3 sLeadZero).2.2 = 5 :=
  C8_leading_zero_high_word 3 sLeadZero (by decide) (by decide) (by decide)
    (by decide) (by decide) (by decide) (by decide) (by decide)

/-- C9: for a nonzero divisor `d`, any loop entry carry below `d` and any
word sequence of 64-bit words, the carry accumulator stays below `d`
through the loop and ends below `d`, every double-width step value
`carry·2^64 + w` is below `d·2^64`, and every emitted quotient digit fits
in 64 bits. -/
theorem C9_divider_loop_invariant (d : Nat) (hd : 0 < d) (l : List Nat)
    (hw : ∀ w ∈ l, w < 2 ^ 64) (carry : Nat) (hc : carry < d) :
    (divLoop d carry l).2 < d ∧
    (∀ q ∈ (divLoop d carry l).1, q < 2 ^ 64) ∧
    (∀ w ∈ l, ∀ c, c < d → c * 2 ^ 64 + w < d * 2 ^ 64) := by
  obtain ⟨h1, h2⟩ := divLoop_bounds d hd l hw carry hc
  refine ⟨h1, h2, ?_⟩
  intro w hwl c hcd
  have hwlt := hw w hwl
  calc c * 2 ^ 64 + w < (c + 1) * 2 ^ 64 := by
        rw [Nat.add_mul, Nat.one_mul]
        omega
    _ ≤ d * 2 ^ 64 := Nat.mul_le_mul_right _ hcd

/-- C9 witness: divisor 3, single word 5, entry carry 0. -/
theorem C9_divider_loop_invariant_witness :
    ((0 : Nat) < 3 ∧ (∀ w ∈ ([5] : List Nat), w < 2 ^ 64)) ∧
    ((divLoop 3 0 [5]).2 < 3 ∧
     (∀ q ∈ (divLoop 3 0 [5]).1, q < 2 ^ 64) ∧
     (∀ w ∈ ([5] : List Nat), ∀ c, c < 3 → c * 2 ^ 64 + w < 3 * 2 ^ 64)) :=
  ⟨⟨by decide, by decide⟩,
    C9_divider_loop_invariant 3 (by decide) [5] (by decide) 0 (by decide)⟩
